import Mathlib

/-!
# Shallow embedding of src/FixedPoint.h (PoorMansFixedPoint)

A `FixedPoint<INT_BITS, FRAC_BITS>` owns one signed 64-bit storage word
(`long long num`).  We model the word by its bit pattern, a natural number
below `2^64`; the signed (two's complement) reading of a pattern is `toInt`
and the pattern of a signed value is `ofInt`.  The header's static_assert
pins C++ signed right shifts to arithmetic shifts, which are floor division,
modelled by `Int.fdiv`; unsigned shifts and wrap-around stores are explicit
`% 2^64` arithmetic; `__int128` intermediates are exact `Int` computations
truncated with `% 2^64` exactly where the code casts back to `long long`.
Shape parameters `INT_BITS`/`FRAC_BITS` are `Nat` arguments `I`/`F`
(`RI`/`RF` for the right hand side operand of binary operators); the
static_assert width predicate itself is modelled over `Int` in `widthOK`
because the C++ template parameters are of type `int`.
-/

namespace FP

/-- The bit pattern (below `2^64`) stored by a `long long` whose value is
`x`, i.e. the value reduced modulo `2^64`. -/
def ofInt (x : Int) : Nat := (x % (2 ^ 64 : Int)).toNat

/-- Signed (two's complement) value of a 64-bit pattern. -/
def toInt (w : Nat) : Int := if w < 2 ^ 63 then (w : Int) else (w : Int) - 2 ^ 64

/-- `FixedPoint::get_num_sign_extended` (src/FixedPoint.h:162-173): shift
the pattern left (unsigned, logically) by `32 - INT_BITS`, then shift back
(signed, arithmetically) to sign extend the stored number to Q(32,32). -/
def get_num_sign_extended (I : Nat) (w : Nat) : Int :=
  Int.fdiv (toInt (w * 2 ^ (32 - I) % 2 ^ 64)) (2 ^ (32 - I))

/-- The bit mask `((1ull << (INT_BITS+FRAC_BITS)) - 1) << (32-FRAC_BITS)`
used by `FixedPoint::round`. -/
def fpmask (I F : Nat) : Nat := (2 ^ (I + F) - 1) * 2 ^ (32 - F)

/-- `FixedPoint::round` (src/FixedPoint.h:116-157) with the debug overflow
path disabled (the default): add `1ll << (31-FRAC_BITS)` when
`FRAC_BITS < 32` (the signed `+=` wraps modulo `2^64` at the bit pattern
level), then apply the bit mask when `INT_BITS+FRAC_BITS < 64`. -/
def round (I F : Nat) (w : Nat) : Nat :=
  let w1 := if F < 32 then (w + 2 ^ (31 - F)) % 2 ^ 64 else w
  if I + F < 64 then w1 &&& fpmask I F else w1

/-- Default constructor: member init `long long num{}` zero-initializes. -/
def defaultFP : Nat := 0

/-- Converting constructor from `FixedPoint<RHS_INT_BITS, RHS_FRAC_BITS>`
(src/FixedPoint.h:192-197): take the source sign extended to Q(32,32),
then round into this type's shape.  Only `RHS_INT_BITS` enters the
computation. -/
def fromFP (I F RI : Nat) (w : Nat) : Nat :=
  round I F (ofInt (get_num_sign_extended RI w))

/-- Same-shape copy constructor (src/FixedPoint.h:198-205): the word is
copied verbatim, without rounding. -/
def copyFP (w : Nat) : Nat := w

/-- Model of `std::llround`: round to the nearest integer, halfway cases
away from zero. -/
def llround (q : ℚ) : Int := if 0 ≤ q then ⌊q + 1 / 2⌋ else ⌈q - 1 / 2⌉

/-- `FixedPoint::FixedPoint(double)` (src/FixedPoint.h:210-214):
`num = llround(a * 2^32)`, then `round()`.  The `double` multiplication by
`2^32` is exact in IEEE arithmetic (a power-of-two scaling), so taking `a`
to be the exact rational value of the double argument makes this model
exact up to the (quantified, where it matters) error between a decimal
literal and its nearest double. -/
def fromDouble (I F : Nat) (a : ℚ) : Nat :=
  round I F (ofInt (llround (a * 2 ^ 32)))

/-- `FixedPoint::FixedPoint(int)` (src/FixedPoint.h:219-223):
`num = ((long long) n) << 32`, then `round()`. -/
def fromInt (I F : Nat) (n : Int) : Nat := round I F (ofInt (n * 2 ^ 32))

/-- `FixedPoint::FixedPoint(int, unsigned)` (src/FixedPoint.h:228-234).
`num` is zero-initialized before the body runs; the body ors the shifted
integer part with the low bits of `num`, masks the low half away, ors in
the fraction numerator shifted into place, then rounds.  The `unsigned`
parameter is reduced `% 2^32` to model its type's width. -/
def fromIntFrac (I F : Nat) (i : Int) (f : Nat) : Nat :=
  let n1 := ofInt (i * 2 ^ 32) ||| (0xFFFFFFFF &&& (0 : Nat))
  let n2 := n1 &&& 0xFFFFFFFF00000000
  let n3 := n2 ||| (0xFFFFFFFF &&& (f % 2 ^ 32 * 2 ^ (32 - F) % 2 ^ 64))
  round I F n3

/-- `operator=` from a different shape (src/FixedPoint.h:268-275): sign
extend the source, then round into the receiver's shape. -/
def assignFP (I F RI : Nat) (w : Nat) : Nat :=
  round I F (ofInt (get_num_sign_extended RI w))

/-- `operator=` from the same shape (src/FixedPoint.h:276-281): the word is
copied verbatim, without rounding. -/
def assignSameFP (w : Nat) : Nat := w

/-- Explicit conversion to `double` (src/FixedPoint.h:286-291), modelled
exactly in `ℚ`: the sign-extended word divided by `2^32`.  This is the real
number a stored word represents (spec invariant I2). -/
def toDouble (I : Nat) (w : Nat) : ℚ :=
  (get_num_sign_extended I w : ℚ) / 2 ^ 32

/-- Unary `operator-` (src/FixedPoint.h:296-302). -/
def negFP (I F : Nat) (w : Nat) : Nat :=
  round I F (ofInt (-get_num_sign_extended I w))

/-- Binary `operator+` (src/FixedPoint.h:308-317): result has the left
operand's shape. -/
def addFP (I F RI : Nat) (wl wr : Nat) : Nat :=
  round I F (ofInt (get_num_sign_extended I wl + get_num_sign_extended RI wr))

/-- `operator+=` (src/FixedPoint.h:318-325): the receiver's word is set to
the sum of the sign-extended operands, then rounded in place. -/
def addAssignFP (I F RI : Nat) (wl wr : Nat) : Nat :=
  round I F (ofInt (get_num_sign_extended I wl + get_num_sign_extended RI wr))

/-- Binary `operator-` (src/FixedPoint.h:326-335). -/
def subFP (I F RI : Nat) (wl wr : Nat) : Nat :=
  round I F (ofInt (get_num_sign_extended I wl - get_num_sign_extended RI wr))

/-- `operator-=` (src/FixedPoint.h:336-343). -/
def subAssignFP (I F RI : Nat) (wl wr : Nat) : Nat :=
  round I F (ofInt (get_num_sign_extended I wl - get_num_sign_extended RI wr))

/-- Integer bits of the `operator*` result type:
`std::min(INT_BITS + RHS_INT_BITS, 32)`. -/
def mulResI (I RI : Nat) : Nat := min (I + RI) 32

/-- Fractional bits of the `operator*` result type:
`std::min(FRAC_BITS + RHS_FRAC_BITS, 32)`. -/
def mulResF (F RF : Nat) : Nat := min (F + RF) 32

/-- Scenario 1 of `operator*` (src/FixedPoint.h:360-382), the pre-round
result word: each sign-extended operand is arithmetically shifted right by
its own integer-bit count, the products of the shifted operands is formed
in 64 bits (wrapping at the pattern level), then shifted into place, to the
left when `INT_BITS + RHS_INT_BITS > 32` (pattern-level wrap) and
arithmetically to the right otherwise. -/
def mulFastNum (I RI : Nat) (wl wr : Nat) : Nat :=
  let op_a := Int.fdiv (get_num_sign_extended I wl) (2 ^ I)
  let op_b := Int.fdiv (get_num_sign_extended RI wr) (2 ^ RI)
  let p := ofInt (op_a * op_b)
  if 32 < I + RI then p * 2 ^ (I + RI - 32) % 2 ^ 64
  else ofInt (Int.fdiv (toInt p) (2 ^ (32 - (I + RI))))

/-- Scenario 2 of `operator*` (src/FixedPoint.h:383-403), the pre-round
result word: exact `__int128` product of the sign-extended operands,
arithmetically shifted right by 32, cast back to 64 bits. -/
def mulSlowNum (I RI : Nat) (wl wr : Nat) : Nat :=
  ofInt (Int.fdiv (get_num_sign_extended I wl * get_num_sign_extended RI wr) (2 ^ 32))

/-- The fast (64-bit) multiplication path including the final round. -/
def mulFast (I F RI RF : Nat) (wl wr : Nat) : Nat :=
  round (mulResI I RI) (mulResF F RF) (mulFastNum I RI wl wr)

/-- The slow (128-bit, exact) multiplication path including the final
round. -/
def mulSlow (I F RI RF : Nat) (wl wr : Nat) : Nat :=
  round (mulResI I RI) (mulResF F RF) (mulSlowNum I RI wl wr)

/-- `operator*` (src/FixedPoint.h:351-404): the fast path is selected
exactly when both operand shapes fit in 32 significant bits. -/
def mulFP (I F RI RF : Nat) (wl wr : Nat) : Nat :=
  if I + F ≤ 32 ∧ RI + RF ≤ 32 then mulFast I F RI RF wl wr
  else mulSlow I F RI RF wl wr

/-- `operator*=` (src/FixedPoint.h:409-417): `res` is constructed from the
product `*this * rhs`; when the product type
`<min(I+RI,32), min(F+RF,32)>` coincides with `<I,F>` overload resolution
selects the same-shape copy constructor (no re-rounding), otherwise the
converting constructor sign extends and rounds the product into `<I,F>`.
The receiver's word then becomes `res.num`. -/
def mulAssignFP (I F RI RF : Nat) (wl wr : Nat) : Nat :=
  if mulResI I RI = I ∧ mulResF F RF = F then mulFP I F RI RF wl wr
  else fromFP I F (mulResI I RI) (mulFP I F RI RF wl wr)

/-- `operator/` (src/FixedPoint.h:424-439).  The code widens the
sign-extended dividend to `__int128`, shifts it left by 32, and divides by
the sign-extended divisor with native `__int128` division - truncation
toward zero - performing no divisor check; a zero divisor therefore reaches
native integer division by zero, which is undefined behaviour in C++.
`none` marks exactly that situation.  Otherwise the quotient is cast back
to 64 bits and rounded. -/
def divFP (I F RI : Nat) (wl wr : Nat) : Option Nat :=
  if get_num_sign_extended RI wr = 0 then none
  else some (round I F (ofInt (Int.tdiv (get_num_sign_extended I wl * 2 ^ 32)
    (get_num_sign_extended RI wr))))

/-- `operator/=` (src/FixedPoint.h:440-448): `res` is constructed from
`*this / rhs`, whose type is the receiver's, so the same-shape copy
constructor copies the quotient word verbatim into the receiver. -/
def divAssignFP (I F RI : Nat) (wl wr : Nat) : Option Nat := divFP I F RI wl wr

/-- `operator==` (src/FixedPoint.h:453-458): compares the sign-extended
operands. -/
def eqFP (I RI : Nat) (wl wr : Nat) : Bool :=
  decide (get_num_sign_extended I wl = get_num_sign_extended RI wr)

/-- `operator!=` (src/FixedPoint.h:459-464). -/
def neFP (I RI : Nat) (wl wr : Nat) : Bool :=
  decide (get_num_sign_extended I wl ≠ get_num_sign_extended RI wr)

/-- `operator<` (src/FixedPoint.h:465-470). -/
def ltFP (I RI : Nat) (wl wr : Nat) : Bool :=
  decide (get_num_sign_extended I wl < get_num_sign_extended RI wr)

/-- `operator<=` (src/FixedPoint.h:471-476). -/
def leFP (I RI : Nat) (wl wr : Nat) : Bool :=
  decide (get_num_sign_extended I wl ≤ get_num_sign_extended RI wr)

/-- `operator>` (src/FixedPoint.h:477-482). -/
def gtFP (I RI : Nat) (wl wr : Nat) : Bool :=
  decide (get_num_sign_extended RI wr < get_num_sign_extended I wl)

/-- `operator>=` (src/FixedPoint.h:483-488). -/
def geFP (I RI : Nat) (wl wr : Nat) : Bool :=
  decide (get_num_sign_extended RI wr ≤ get_num_sign_extended I wl)

/-- `FixedPoint::get_frac_quotient` (src/FixedPoint.h:247-253): the string
`<(num & 0xFFFFFFFF) >> (32-FRAC_BITS)>/<1ll << FRAC_BITS>`. -/
def get_frac_quotient (F : Nat) (w : Nat) : String :=
  toString ((w &&& 0xFFFFFFFF) >>> (32 - F)) ++ "/" ++ toString (2 ^ F : Nat)

/-- `FixedPoint::to_string` (src/FixedPoint.h:258-263): the sign-extended
integer part (arithmetic shift right by 32), " + ", and the fraction
quotient. -/
def to_string (I F : Nat) (w : Nat) : String :=
  toString (Int.fdiv (get_num_sign_extended I w) (2 ^ 32)) ++ " + " ++
    get_frac_quotient F w

/-- The static_assert width constraints (src/FixedPoint.h:79-84), over the
C++ `int` template parameters: instantiation is accepted exactly when this
predicate holds. -/
def widthOK (i f : Int) : Bool :=
  decide (i ≤ 32) && decide (f ≤ 32) && decide (0 < i + f)

/-- Modelled from the spec: the §4.1 contract "`I ∈ [0,32]`, `F ∈ [0,32]`,
`I+F ≥ 1`" (refinement reference for the width-rejection claim; the code's
own check is `widthOK`). -/
def specWidthOK (i f : Int) : Bool :=
  decide (0 ≤ i) && decide (i ≤ 32) && decide (0 ≤ f) && decide (f ≤ 32) &&
    decide (1 ≤ i + f)

/-- Spec invariant I1 in the implementation's canonical form: the word fits
in 64 bits and, when `INT_BITS + FRAC_BITS < 64`, every bit outside
positions `[32-FRAC_BITS, 31+INT_BITS]` is zero. -/
def canonical (I F : Nat) (w : Nat) : Prop :=
  w < 2 ^ 64 ∧ (I + F < 64 → w % 2 ^ (32 - F) = 0 ∧ w < 2 ^ (32 + I))

instance (I F w : Nat) : Decidable (canonical I F w) := by
  unfold canonical
  infer_instance

/-! ## Basic facts about the pattern/value correspondence -/

lemma ofInt_lt (x : Int) : ofInt x < 2 ^ 64 := by
  unfold ofInt
  have h1 := Int.emod_nonneg x (show (2 ^ 64 : Int) ≠ 0 by norm_num)
  have h2 := Int.emod_lt_of_pos x (show (0 : Int) < 2 ^ 64 by norm_num)
  omega

lemma ofInt_cast (x : Int) : (ofInt x : Int) = x % 2 ^ 64 := by
  unfold ofInt
  have h1 := Int.emod_nonneg x (show (2 ^ 64 : Int) ≠ 0 by norm_num)
  omega

lemma toInt_ofInt {x : Int} (h1 : -(2 ^ 63) ≤ x) (h2 : x < 2 ^ 63) :
    toInt (ofInt x) = x := by
  unfold toInt
  have hc := ofInt_cast x
  have hl := ofInt_lt x
  rcases le_or_lt 0 x with hx | hx
  · have : x % 2 ^ 64 = x := Int.emod_eq_of_lt hx (by omega)
    split <;> omega
  · have : x % 2 ^ 64 = x + 2 ^ 64 := by
      have hm : (x + 2 ^ 64) % 2 ^ 64 = x % 2 ^ 64 := by
        simpa using Int.add_mul_emod_self_left x (2 ^ 64) 1
      have h3 : (x + 2 ^ 64) % 2 ^ 64 = x + 2 ^ 64 :=
        Int.emod_eq_of_lt (by omega) (by omega)
      omega
    split <;> omega

lemma ofInt_toInt {w : Nat} (hw : w < 2 ^ 64) : ofInt (toInt w) = w := by
  unfold toInt ofInt
  split
  · have : ((w : Int)) % 2 ^ 64 = w := Int.emod_eq_of_lt (by positivity) (by exact_mod_cast hw)
    omega
  · have hwi : (w : Int) < 2 ^ 64 := by exact_mod_cast hw
    have : ((w : Int) - 2 ^ 64) % 2 ^ 64 = (w : Int) - 2 ^ 64 + 2 ^ 64 := by
      have h1 : ((w : Int) - 2 ^ 64 + 2 ^ 64) % 2 ^ 64 = ((w : Int) - 2 ^ 64) % 2 ^ 64 := by
        simpa using Int.add_mul_emod_self_left ((w : Int) - 2 ^ 64) (2 ^ 64) 1
      have h2 : ((w : Int) - 2 ^ 64 + 2 ^ 64) % 2 ^ 64 = (w : Int) - 2 ^ 64 + 2 ^ 64 :=
        Int.emod_eq_of_lt (by omega) (by omega)
      omega
    omega

/-- The sign extension, characterized: it reads the low `32 + I` bits of the
pattern as a two's complement number of that width. -/
lemma sx_eq {I : Nat} (hI : I ≤ 32) {w : Nat} (hw : w < 2 ^ 64) :
    get_num_sign_extended I w =
      if w % 2 ^ (32 + I) < 2 ^ (31 + I) then ((w % 2 ^ (32 + I) : Nat) : Int)
      else ((w % 2 ^ (32 + I) : Nat) : Int) - 2 ^ (32 + I) := by
  unfold get_num_sign_extended
  have hsplit : (2 : Nat) ^ 64 = 2 ^ (32 + I) * 2 ^ (32 - I) := by
    rw [← pow_add]; congr 1; omega
  have hshift : w * 2 ^ (32 - I) % 2 ^ 64 = w % 2 ^ (32 + I) * 2 ^ (32 - I) := by
    rw [hsplit, Nat.mul_mod_mul_right]
  rw [hshift]
  set u := w % 2 ^ (32 + I) with hu
  have hpos : 0 < 2 ^ (32 - I) := Nat.pos_pow_of_pos _ (by norm_num)
  have hult : u < 2 ^ (32 + I) := Nat.mod_lt _ (Nat.pos_pow_of_pos _ (by norm_num))
  have h63 : (2 : Nat) ^ 63 = 2 ^ (31 + I) * 2 ^ (32 - I) := by
    rw [← pow_add]; congr 1; omega
  have hizpos : (0 : Int) < 2 ^ (32 - I) := by positivity
  by_cases hcase : u < 2 ^ (31 + I)
  · have hlt : u * 2 ^ (32 - I) < 2 ^ 63 := by
      rw [h63]; exact (Nat.mul_lt_mul_right hpos).mpr hcase
    simp only [toInt]
    rw [if_pos hlt, if_pos hcase]
    push_cast
    exact Int.mul_fdiv_cancel _ hizpos.ne'
  · have hge : ¬ u * 2 ^ (32 - I) < 2 ^ 63 := by
      rw [h63]
      exact not_lt.mpr (Nat.mul_le_mul_right _ (not_lt.mp hcase))
    simp only [toInt]
    rw [if_neg hge, if_neg hcase]
    have hcast : ((u * 2 ^ (32 - I) : Nat) : Int) = (u : Int) * 2 ^ (32 - I) := by
      push_cast; ring
    have h64 : ((2 : Int) ^ 64) = 2 ^ (32 + I) * 2 ^ (32 - I) := by
      rw [← pow_add]; congr 1; omega
    rw [hcast, h64]
    have hfac : (u : Int) * 2 ^ (32 - I) - 2 ^ (32 + I) * 2 ^ (32 - I) =
        ((u : Int) - 2 ^ (32 + I)) * 2 ^ (32 - I) := by ring
    rw [hfac, Int.mul_fdiv_cancel _ hizpos.ne']

lemma sx_lb {I : Nat} (hI : I ≤ 32) {w : Nat} (hw : w < 2 ^ 64) :
    -(2 ^ (31 + I)) ≤ get_num_sign_extended I w := by
  rw [sx_eq hI hw]
  have hcast : ((w % 2 ^ (32 + I) : Nat) : Int) < 2 ^ (32 + I) := by
    exact_mod_cast Nat.mod_lt _ (show 0 < 2 ^ (32 + I) from Nat.pos_pow_of_pos _ (by norm_num))
  have hnn : (0 : Int) ≤ ((w % 2 ^ (32 + I) : Nat) : Int) := by positivity
  have h2 : (2 : Int) ^ (32 + I) = 2 ^ (31 + I) * 2 := by
    rw [show 32 + I = (31 + I) + 1 by omega, pow_succ]
  have hppos : (0 : Int) < 2 ^ (31 + I) := by positivity
  have hcp1 : ((2 ^ (31 + I) : Nat) : Int) = 2 ^ (31 + I) := by push_cast; ring
  have hcp2 : ((2 ^ (32 + I) : Nat) : Int) = 2 ^ (32 + I) := by push_cast; ring
  split
  · omega
  · omega

lemma sx_ub {I : Nat} (hI : I ≤ 32) {w : Nat} (hw : w < 2 ^ 64) :
    get_num_sign_extended I w < 2 ^ (31 + I) := by
  rw [sx_eq hI hw]
  have hcast : ((w % 2 ^ (32 + I) : Nat) : Int) < 2 ^ (32 + I) := by
    exact_mod_cast Nat.mod_lt _ (show 0 < 2 ^ (32 + I) from Nat.pos_pow_of_pos _ (by norm_num))
  have h2 : (2 : Int) ^ (32 + I) = 2 ^ (31 + I) * 2 := by
    rw [show 32 + I = (31 + I) + 1 by omega, pow_succ]
  have hppos : (0 : Int) < 2 ^ (31 + I) := by positivity
  have hcp1 : ((2 ^ (31 + I) : Nat) : Int) = 2 ^ (31 + I) := by push_cast; ring
  have hcp2 : ((2 ^ (32 + I) : Nat) : Int) = 2 ^ (32 + I) := by push_cast; ring
  split
  · next hc =>
    have : ((w % 2 ^ (32 + I) : Nat) : Int) < ((2 ^ (31 + I) : Nat) : Int) := by exact_mod_cast hc
    omega
  · omega

lemma sx_modeq {I : Nat} (hI : I ≤ 32) {w : Nat} (hw : w < 2 ^ 64) :
    get_num_sign_extended I w ≡ (w : Int) [ZMOD ((2 : Int) ^ (32 + I))] := by
  rw [sx_eq hI hw]
  have hcast : ((w % 2 ^ (32 + I) : Nat) : Int) = (w : Int) % 2 ^ (32 + I) := by
    push_cast; ring
  split
  · rw [hcast]
    exact Int.emod_emod_of_dvd _ dvd_rfl
  · show _ % _ = _ % _
    rw [hcast]
    have h1 : ((w : Int) % 2 ^ (32 + I) - 2 ^ (32 + I)) % 2 ^ (32 + I) =
        ((w : Int) % 2 ^ (32 + I)) % 2 ^ (32 + I) := by
      simpa using Int.add_mul_emod_self_left ((w : Int) % 2 ^ (32 + I)) (2 ^ (32 + I)) (-1)
    rw [h1, Int.emod_emod_of_dvd _ dvd_rfl]

lemma sx_zero (I : Nat) : get_num_sign_extended I 0 = 0 := by
  unfold get_num_sign_extended toInt
  norm_num

/-! ## The mask and the rounding step -/

/-- Conjunction with a contiguous mask extracts a bit field:
`x &&& ((2^k - 1) * 2^a)` keeps exactly bits `[a, a+k-1]` of `x`. -/
lemma land_field_mask (x k a : Nat) :
    x &&& (2 ^ k - 1) * 2 ^ a = x / 2 ^ a % 2 ^ k * 2 ^ a := by
  apply Nat.eq_of_testBit_eq
  intro i
  rw [Nat.testBit_land, ← Nat.shiftLeft_eq (2 ^ k - 1) a, Nat.testBit_shiftLeft,
    Nat.testBit_two_pow_sub_one,
    ← Nat.shiftLeft_eq (x / 2 ^ a % 2 ^ k) a, Nat.testBit_shiftLeft,
    Nat.testBit_mod_two_pow, ← Nat.shiftRight_eq_div_pow, Nat.testBit_shiftRight]
  by_cases hia : a ≤ i
  · have hfix : a + (i - a) = i := by omega
    rw [hfix]
    rw [show decide (i ≥ a) = true from decide_eq_true hia]
    rw [Bool.true_and, Bool.true_and]
    exact Bool.and_comm _ _
  · rw [show decide (i ≥ a) = false from decide_eq_false hia]
    rw [Bool.false_and, Bool.false_and, Bool.and_false]

/-- `round` written arithmetically, for shapes with fewer than 64 total
bits: add the half increment (when `F < 32`), drop the bits below the
window, wrap at the window's width, and re-position. -/
lemma round_eq {I F : Nat} (hI : I ≤ 32) (hF : F ≤ 32) (hIF : I + F < 64) (w : Nat) :
    round I F w =
      (w + if F < 32 then 2 ^ (31 - F) else 0) / 2 ^ (32 - F) % 2 ^ (I + F) *
        2 ^ (32 - F) := by
  unfold round fpmask
  rw [if_pos hIF]
  have hcollapse : ∀ y : Nat, y % 2 ^ 64 / 2 ^ (32 - F) % 2 ^ (I + F) =
      y / 2 ^ (32 - F) % 2 ^ (I + F) := by
    intro y
    have hs : (2 : Nat) ^ 64 = 2 ^ (32 - F) * 2 ^ (64 - (32 - F)) := by
      rw [← pow_add]; congr 1; omega
    rw [hs, Nat.mod_mul_right_div_self]
    exact Nat.mod_mod_of_dvd _ (pow_dvd_pow 2 (by omega))
  by_cases hf : F < 32
  · rw [if_pos hf, if_pos hf, land_field_mask, hcollapse]
  · rw [if_neg hf, if_neg hf, land_field_mask, Nat.add_zero]

/-- At 64 total bits (`I = F = 32`) `round` is the identity. -/
lemma round_id_64 (w : Nat) : round 32 32 w = w := rfl

/-- The output of `round` always satisfies invariant I1. -/
lemma canonical_round {I F : Nat} (hI : I ≤ 32) (hF : F ≤ 32) {w : Nat}
    (hw : w < 2 ^ 64) : canonical I F (round I F w) := by
  by_cases hIF : I + F < 64
  · rw [round_eq hI hF hIF]
    set q := (w + if F < 32 then 2 ^ (31 - F) else 0) / 2 ^ (32 - F) % 2 ^ (I + F) with hq
    have hqlt : q < 2 ^ (I + F) := Nat.mod_lt _ (Nat.pos_pow_of_pos _ (by norm_num))
    have hbound : q * 2 ^ (32 - F) < 2 ^ (32 + I) := by
      have hs : (2 : Nat) ^ (32 + I) = 2 ^ (I + F) * 2 ^ (32 - F) := by
        rw [← pow_add]; congr 1; omega
      rw [hs]
      exact (Nat.mul_lt_mul_right (Nat.pos_pow_of_pos _ (by norm_num))).mpr hqlt
    refine ⟨lt_of_lt_of_le hbound (Nat.pow_le_pow_right (by norm_num) (by omega)), fun _ => ⟨?_, hbound⟩⟩
    exact Nat.mul_mod_left q _
  · have h6432 : I = 32 ∧ F = 32 := by omega
    obtain ⟨hi32, hf32⟩ := h6432
    subst hi32; subst hf32
    rw [round_id_64]
    exact ⟨hw, fun h => absurd h (by omega)⟩

/-- `round` is the identity on canonical words (rounding-and-mask does not
perturb a word already in range). -/
lemma round_id_of_canonical {I F : Nat} (hI : I ≤ 32) (hF : F ≤ 32) {w : Nat}
    (hc : canonical I F w) : round I F w = w := by
  by_cases hIF : I + F < 64
  · have hdvd := (hc.2 hIF).1
    have hlt := (hc.2 hIF).2
    rw [round_eq hI hF hIF]
    have hdv : 2 ^ (32 - F) ∣ w := Nat.dvd_of_mod_eq_zero hdvd
    obtain ⟨m, hm⟩ := hdv
    have hmlt : m < 2 ^ (I + F) := by
      have hs : (2 : Nat) ^ (32 + I) = 2 ^ (32 - F) * 2 ^ (I + F) := by
        rw [← pow_add]; congr 1; omega
      by_contra hge
      have : 2 ^ (32 - F) * 2 ^ (I + F) ≤ 2 ^ (32 - F) * m :=
        Nat.mul_le_mul_left _ (not_lt.mp hge)
      omega
    have hhalf : (if F < 32 then 2 ^ (31 - F) else 0) < 2 ^ (32 - F) := by
      split
      · exact Nat.pow_lt_pow_right (by norm_num) (by omega)
      · exact Nat.pos_pow_of_pos _ (by norm_num)
    subst hm
    rw [Nat.mul_add_div (Nat.pos_pow_of_pos _ (by norm_num))]
    rw [Nat.div_eq_of_lt hhalf]
    rw [Nat.add_zero, Nat.mod_eq_of_lt hmlt]
    ring
  · have h6432 : I = 32 ∧ F = 32 := by omega
    obtain ⟨hi32, hf32⟩ := h6432
    subst hi32; subst hf32
    exact round_id_64 w

/-! ## Tracking values through ofInt, round and the sign extension -/

lemma ofInt_modeq (x : Int) {m : Int} (hdvd : m ∣ 2 ^ 64) :
    (ofInt x : Int) ≡ x [ZMOD m] := by
  rw [ofInt_cast]
  exact Int.emod_emod_of_dvd _ hdvd

lemma dvd_ofInt {a : Nat} (ha : a ≤ 64) {x : Int} (hdvd : ((2 : Int) ^ a) ∣ x) :
    2 ^ a ∣ ofInt x := by
  have h1 : ((2 : Int) ^ a) ∣ (ofInt x : Int) := by
    rw [ofInt_cast, Int.emod_def]
    exact dvd_sub hdvd (Dvd.dvd.mul_right (pow_dvd_pow 2 ha) _)
  have h2 : (((2 ^ a : Nat) : Int)) ∣ (ofInt x : Int) := by
    push_cast
    exact h1
  exact Int.natCast_dvd_natCast.mp h2

/-- The central tracking fact: rounding the pattern of a value `x` that is
already a multiple of the window's granule, then sign extending, recovers
`x` modulo `2^(32+I)`. -/
lemma sx_round_ofInt {I F : Nat} (hI : I ≤ 32) (hF : F ≤ 32) {x : Int}
    (hdvd : ((2 : Int) ^ (32 - F)) ∣ x) :
    get_num_sign_extended I (round I F (ofInt x)) ≡ x [ZMOD ((2 : Int) ^ (32 + I))] := by
  have hwlt : round I F (ofInt x) < 2 ^ 64 := (canonical_round hI hF (ofInt_lt x)).1
  refine (sx_modeq hI hwlt).trans ?_
  by_cases hIF : I + F < 64
  · rw [round_eq hI hF hIF]
    obtain ⟨m, hm⟩ := dvd_ofInt (by omega) hdvd
    have hhalf : (if F < 32 then 2 ^ (31 - F) else 0) < 2 ^ (32 - F) := by
      split
      · exact Nat.pow_lt_pow_right (by norm_num) (by omega)
      · exact Nat.pos_pow_of_pos _ (by norm_num)
    rw [hm, Nat.mul_add_div (Nat.pos_pow_of_pos _ (by norm_num)),
      Nat.div_eq_of_lt hhalf, Nat.add_zero]
    have hcast : ((m % 2 ^ (I + F) * 2 ^ (32 - F) : Nat) : Int) =
        ((m : Int) % 2 ^ (I + F)) * 2 ^ (32 - F) := by push_cast; ring
    rw [hcast]
    have hstep1 : ((m : Int) % 2 ^ (I + F)) * 2 ^ (32 - F) ≡
        (m : Int) * 2 ^ (32 - F) [ZMOD ((2 : Int) ^ (I + F) * 2 ^ (32 - F))] :=
      Int.ModEq.mul_right' (Int.emod_emod_of_dvd _ dvd_rfl)
    have hmod : ((2 : Int) ^ (I + F) * 2 ^ (32 - F)) = 2 ^ (32 + I) := by
      rw [← pow_add]; congr 1; omega
    rw [hmod] at hstep1
    refine hstep1.trans ?_
    have hx : ((2 ^ (32 - F) * m : Nat) : Int) = (m : Int) * 2 ^ (32 - F) := by
      push_cast; ring
    rw [← hx, ← hm]
    exact ofInt_modeq x (pow_dvd_pow 2 (by omega))
  · have hi32 : I = 32 := by omega
    have hf32 : F = 32 := by omega
    subst hi32; subst hf32
    rw [round_id_64]
    exact ofInt_modeq x (pow_dvd_pow 2 (by omega))

/-- The sign-extended value of a canonical word is a multiple of the
window's granule `2^(32-F)`. -/
lemma sx_dvd_of_canonical {I F : Nat} (hI : I ≤ 32) (hF : F ≤ 32) {w : Nat}
    (hc : canonical I F w) :
    ((2 : Int) ^ (32 - F)) ∣ get_num_sign_extended I w := by
  by_cases hIF : I + F < 64
  · have hdvd := (hc.2 hIF).1
    have hlt := (hc.2 hIF).2
    rw [sx_eq hI hc.1, Nat.mod_eq_of_lt hlt]
    have hwdvd : ((2 : Int) ^ (32 - F)) ∣ (w : Int) := by
      have h2 : (((2 ^ (32 - F) : Nat) : Int)) ∣ (w : Int) :=
        Int.natCast_dvd_natCast.mpr (Nat.dvd_of_mod_eq_zero hdvd)
      have hc2 : (((2 ^ (32 - F) : Nat) : Int)) = (2 : Int) ^ (32 - F) := by push_cast; ring
      rwa [hc2] at h2
    split
    · exact hwdvd
    · exact dvd_sub hwdvd (pow_dvd_pow 2 (by omega))
  · have hf32 : F = 32 := by omega
    subst hf32
    simp

/-- A canonical word's sign-extended value, decomposed as a bounded signed
numerator over the window's granule. -/
lemma sx_decomp_of_canonical {I F : Nat} (hI : I ≤ 32) (hF : F ≤ 32)
    (h0 : 0 < I + F) {w : Nat} (hc : canonical I F w) :
    ∃ b : Int, get_num_sign_extended I w = b * 2 ^ (32 - F) ∧
      -(2 ^ (I + F - 1)) ≤ b ∧ b < 2 ^ (I + F - 1) := by
  obtain ⟨b, hb⟩ := sx_dvd_of_canonical hI hF hc
  refine ⟨b, by rw [hb]; ring, ?_, ?_⟩
  all_goals
    have hub := sx_ub hI hc.1
    have hlb := sx_lb hI hc.1
    rw [hb] at hub hlb
    have hsplit : (2 : Int) ^ (31 + I) = 2 ^ (I + F - 1) * 2 ^ (32 - F) := by
      rw [← pow_add]; congr 1; omega
    have hpos : (0 : Int) < 2 ^ (32 - F) := by positivity
  · by_contra hcon
    have hle : b ≤ -(2 ^ (I + F - 1)) - 1 := by omega
    have : (2 : Int) ^ (32 - F) * b ≤ 2 ^ (32 - F) * (-(2 ^ (I + F - 1)) - 1) :=
      mul_le_mul_of_nonneg_left hle (le_of_lt hpos)
    nlinarith
  · by_contra hcon
    have hle : (2 : Int) ^ (I + F - 1) ≤ b := by omega
    have : (2 : Int) ^ (32 - F) * 2 ^ (I + F - 1) ≤ 2 ^ (32 - F) * b :=
      mul_le_mul_of_nonneg_left hle (le_of_lt hpos)
    nlinarith

/-- Exact floor division of a shifted value by a smaller power of two. -/
lemma fdiv_pow_exact (c : Int) {s t : Nat} (h : s ≤ t) :
    Int.fdiv (c * 2 ^ t) (2 ^ s) = c * 2 ^ (t - s) := by
  have hsplit : c * 2 ^ t = c * 2 ^ (t - s) * 2 ^ s := by
    rw [mul_assoc, ← pow_add]
    congr 2
    omega
  rw [hsplit, Int.mul_fdiv_cancel _ (by positivity : (0 : Int) < 2 ^ s).ne']

/-- Cancelling a common power of two between dividend and divisor in floor
division. -/
lemma fdiv_pow_shift (x : Int) (k j : Nat) :
    Int.fdiv (x * 2 ^ k) (2 ^ (k + j)) = Int.fdiv x (2 ^ j) := by
  rw [Int.fdiv_eq_ediv _ (by positivity : (0 : Int) ≤ 2 ^ (k + j)),
    Int.fdiv_eq_ediv _ (by positivity : (0 : Int) ≤ 2 ^ j)]
  rw [pow_add, show x * 2 ^ k = 2 ^ k * x by ring,
    show (2 : Int) ^ k * 2 ^ j = 2 ^ k * 2 ^ j from rfl]
  exact Int.mul_ediv_mul_of_pos _ _ (by positivity)

lemma ofInt_natCast {w : Nat} (hw : w < 2 ^ 64) : ofInt ((w : Nat) : Int) = w := by
  have h1 := ofInt_cast ((w : Nat) : Int)
  have h2 : ((w : Int)) % 2 ^ 64 = w :=
    Int.emod_eq_of_lt (by positivity) (by exact_mod_cast hw)
  omega

lemma ofInt_neg_small {x : Int} (h1 : -(2 ^ 64) ≤ x) (h2 : x < 0) :
    (ofInt x : Int) = x + 2 ^ 64 := by
  rw [ofInt_cast]
  have hm : (x + 2 ^ 64) % 2 ^ 64 = x % 2 ^ 64 := by
    simpa using Int.add_mul_emod_self_left x (2 ^ 64) 1
  have h3 : (x + 2 ^ 64) % 2 ^ 64 = x + 2 ^ 64 := Int.emod_eq_of_lt (by omega) (by omega)
  omega

/-- At `INT_BITS = 32` the sign extension is just the signed reading of the
word (the shifts move by zero bits). -/
lemma sx_32 {w : Nat} (hw : w < 2 ^ 64) : get_num_sign_extended 32 w = toInt w := by
  unfold get_num_sign_extended
  simp only [Nat.sub_self, pow_zero, Nat.mul_one, Int.fdiv_one, Nat.mod_eq_of_lt hw]

/-- Converting a canonical word into its own shape is the identity (the
conversion constructor re-rounds, but a canonical word survives). -/
lemma fromFP_id_of_canonical {I F : Nat} (hI : I ≤ 32) (hF : F ≤ 32) {w : Nat}
    (hc : canonical I F w) : fromFP I F I w = w := by
  unfold fromFP
  by_cases hIF : I + F < 64
  · have hdvd := (hc.2 hIF).1
    have hlt := (hc.2 hIF).2
    rw [sx_eq hI hc.1, Nat.mod_eq_of_lt hlt]
    split
    · rw [ofInt_natCast hc.1]
      exact round_id_of_canonical hI hF hc
    · next hcase =>
      have hple : (2 : Nat) ^ (32 + I) ≤ 2 ^ 64 := Nat.pow_le_pow_right (by norm_num) (by omega)
      have hcp : ((2 ^ (32 + I) : Nat) : Int) = (2 : Int) ^ (32 + I) := by push_cast; ring
      have hof : (ofInt ((w : Int) - 2 ^ (32 + I)) : Int) =
          (w : Int) - 2 ^ (32 + I) + 2 ^ 64 := by
        apply ofInt_neg_small
        · have : (0 : Int) ≤ (w : Int) := by positivity
          omega
        · have hwi : (w : Int) < ((2 ^ (32 + I) : Nat) : Int) := by exact_mod_cast hlt
          omega
      have hofn : ofInt ((w : Int) - 2 ^ (32 + I)) = w + (2 ^ 64 - 2 ^ (32 + I)) := by
        have hwi : (w : Int) < ((2 ^ (32 + I) : Nat) : Int) := by exact_mod_cast hlt
        have hcp64 : ((2 ^ 64 : Nat) : Int) = (2 : Int) ^ 64 := by norm_num
        omega
      rw [hofn, round_eq hI hF hIF]
      have hdv : 2 ^ (32 - F) ∣ w := Nat.dvd_of_mod_eq_zero hdvd
      obtain ⟨m, hm⟩ := hdv
      have hrest : 2 ^ 64 - 2 ^ (32 + I) = 2 ^ (32 - F) * (2 ^ (I + F) * (2 ^ (32 - I) - 1)) := by
        have e1 : (2 : Nat) ^ 64 = 2 ^ (32 - F) * (2 ^ (I + F) * 2 ^ (32 - I)) := by
          rw [← pow_add, ← pow_add]; congr 1; omega
        have e2 : (2 : Nat) ^ (32 + I) = 2 ^ (32 - F) * 2 ^ (I + F) := by
          rw [← pow_add]; congr 1; omega
        have e3 : 1 ≤ (2 : Nat) ^ (32 - I) := Nat.one_le_two_pow
        rw [e1, e2]
        rw [Nat.mul_sub, Nat.mul_sub]
        ring_nf
      rw [hm, hrest, ← Nat.mul_add]
      have hhalf : (if F < 32 then 2 ^ (31 - F) else 0) < 2 ^ (32 - F) := by
        split
        · exact Nat.pow_lt_pow_right (by norm_num) (by omega)
        · exact Nat.pos_pow_of_pos _ (by norm_num)
      rw [Nat.mul_add_div (Nat.pos_pow_of_pos _ (by norm_num)), Nat.div_eq_of_lt hhalf,
        Nat.add_zero, Nat.add_mul_mod_self_left]
      have hmlt : m < 2 ^ (I + F) := by
        have hs : (2 : Nat) ^ (32 + I) = 2 ^ (32 - F) * 2 ^ (I + F) := by
          rw [← pow_add]; congr 1; omega
        by_contra hge
        have : 2 ^ (32 - F) * 2 ^ (I + F) ≤ 2 ^ (32 - F) * m :=
          Nat.mul_le_mul_left _ (not_lt.mp hge)
        omega
      rw [Nat.mod_eq_of_lt hmlt]
      ring
  · have hi32 : I = 32 := by omega
    have hf32 : F = 32 := by omega
    subst hi32; subst hf32
    rw [sx_32 hc.1, ofInt_toInt hc.1, round_id_64]

lemma mulFastNum_lt (I RI wl wr : Nat) : mulFastNum I RI wl wr < 2 ^ 64 := by
  unfold mulFastNum
  split
  · exact Nat.mod_lt _ (by norm_num)
  · exact ofInt_lt _

lemma mulSlowNum_lt (I RI wl wr : Nat) : mulSlowNum I RI wl wr < 2 ^ 64 :=
  ofInt_lt _

/-- The word produced by `operator*` is canonical for the product type. -/
lemma mulFP_canonical (I F RI RF wl wr : Nat) :
    canonical (mulResI I RI) (mulResF F RF) (mulFP I F RI RF wl wr) := by
  unfold mulFP mulFast mulSlow
  split
  · exact canonical_round (min_le_right _ _) (min_le_right _ _) (mulFastNum_lt _ _ _ _)
  · exact canonical_round (min_le_right _ _) (min_le_right _ _) (mulSlowNum_lt _ _ _ _)

/-- `llround` rounds to a nearest integer. -/
lemma llround_nearest (q : ℚ) : |q - (llround q : ℚ)| ≤ 1 / 2 := by
  unfold llround
  split
  · rw [abs_le]
    have hf1 := Int.floor_le (q + 1 / 2)
    have hf2 := Int.sub_one_lt_floor (q + 1 / 2)
    push_cast
    constructor <;> linarith
  · rw [abs_le]
    have hc1 := Int.le_ceil (q - 1 / 2)
    have hc2 := Int.ceil_lt_add_one (q - 1 / 2)
    push_cast
    constructor <;> linarith

/-- Two integers congruent modulo `M` and whose difference lies strictly
within `(-M, M)` are equal. -/
lemma eq_of_modeq_of_window {a b M : Int} (hM : 0 < M) (h : a ≡ b [ZMOD M])
    (h1 : -M < a - b) (h2 : a - b < M) : a = b := by
  obtain ⟨k, hk⟩ := Int.modEq_iff_dvd.mp h
  rcases lt_trichotomy k 0 with hlt | heq | hgt
  · have hle : M * k ≤ M * (-1) := mul_le_mul_of_nonneg_left (by omega) (le_of_lt hM)
    have hmm : M * (-1) = -M := by ring
    omega
  · subst heq
    have hz : M * 0 = 0 := by ring
    omega
  · have hle : M * 1 ≤ M * k := mul_le_mul_of_nonneg_left (by omega) (le_of_lt hM)
    have hmm : M * 1 = M := by ring
    omega

lemma ofInt_mul_pow_mod (x : Int) (s : Nat) :
    ofInt x * 2 ^ s % 2 ^ 64 = ofInt (x * 2 ^ s) := by
  have h1 : ((ofInt x * 2 ^ s % 2 ^ 64 : Nat) : Int) = ((ofInt x : Int) * 2 ^ s) % 2 ^ 64 := by
    push_cast
    ring_nf
  have h3 : ((x % 2 ^ 64) * 2 ^ s) % 2 ^ 64 = (x * 2 ^ s) % 2 ^ 64 := by
    conv_lhs => rw [Int.mul_emod]
    conv_rhs => rw [Int.mul_emod]
    rw [Int.emod_emod_of_dvd _ dvd_rfl]
  have h5 : ((ofInt x * 2 ^ s % 2 ^ 64 : Nat) : Int) = ((ofInt (x * 2 ^ s) : Nat) : Int) := by
    rw [h1, ofInt_cast x, h3, ofInt_cast (x * 2 ^ s)]
  exact_mod_cast h5

/-! ## Claim C1: division by zero -/

/-- C1 counterexample: dividing by a zero-valued divisor (here both words
zero at shape `<1,1>` each) reaches the native `__int128` division with a
zero divisor - undefined behaviour, marked `none` - so the operation is not
signalled through any explicit `DivisionByZero` error contract and does
rely on native integer-division-by-zero behaviour. -/
theorem C1_counterexample : divFP 1 1 1 0 0 = none := by decide

/-- C1 (amended): `operator/` performs no divisor check: whenever the
divisor sign-extends to zero the native `__int128` division is reached with
a zero divisor (undefined behaviour, `none`); for every nonzero divisor the
operation completes with a canonical quotient word. -/
theorem C1_div_zero_behaviour (I F RI wl wr : Nat) (hI : I ≤ 32) (hF : F ≤ 32) :
    (get_num_sign_extended RI wr = 0 → divFP I F RI wl wr = none) ∧
    (get_num_sign_extended RI wr ≠ 0 →
      ∃ d, divFP I F RI wl wr = some d ∧ canonical I F d) := by
  constructor
  · intro h
    unfold divFP
    rw [if_pos h]
  · intro h
    unfold divFP
    rw [if_neg h]
    exact ⟨_, rfl, canonical_round hI hF (ofInt_lt _)⟩

theorem C1_witness :
    (divFP 5 5 5 (3 * 2 ^ 27) 0 = none) ∧
    (∃ d, divFP 5 5 5 (3 * 2 ^ 27) (2 ^ 27) = some d ∧ canonical 5 5 d) :=
  ⟨(C1_div_zero_behaviour 5 5 5 (3 * 2 ^ 27) 0 (by norm_num) (by norm_num)).1 (by decide),
   (C1_div_zero_behaviour 5 5 5 (3 * 2 ^ 27) (2 ^ 27) (by norm_num) (by norm_num)).2
     (by decide)⟩

/-! ## Claim C9: width contract -/

/-- C9 counterexample: the pair `(I, F) = (-1, 5)` violates the spec's
contract `I ∈ [0,32]` but satisfies all three static_asserts, so the
instantiation is accepted, refuting "any pair outside those bounds fails to
instantiate". -/
theorem C9_counterexample : widthOK (-1) 5 = true ∧ specWidthOK (-1) 5 = false := by
  decide

/-- C9 (amended): instantiation is rejected exactly when `I > 32`, `F > 32`
or `I + F ≤ 0`.  Every pair the spec contract accepts is accepted, and on
nonnegative parameters the code's check coincides with the spec contract;
but the lower bounds `I, F ≥ 0` are not themselves checked. -/
theorem C9_width_check (i f : Int) :
    (specWidthOK i f = true → widthOK i f = true) ∧
    (0 ≤ i → 0 ≤ f → widthOK i f = specWidthOK i f) := by
  constructor
  · intro h
    unfold specWidthOK at h
    unfold widthOK
    simp only [Bool.and_eq_true, decide_eq_true_eq] at h ⊢
    omega
  · intro hi hf
    have hiff : (widthOK i f = true) ↔ (specWidthOK i f = true) := by
      unfold widthOK specWidthOK
      simp only [Bool.and_eq_true, decide_eq_true_eq]
      omega
    cases hW : widthOK i f <;> cases hS : specWidthOK i f <;> simp_all

theorem C9_witness : (widthOK 5 5 = true) ∧ (widthOK 5 5 = specWidthOK 5 5) :=
  ⟨(C9_width_check 5 5).1 (by decide), (C9_width_check 5 5).2 (by decide) (by decide)⟩

/-! ## Claim C10: round is the identity on canonical words -/

/-- C10: the rounding-and-mask step is the identity on every
already-canonical word, and constructing from a native integer `n` whose
shifted value is representable in the declared width stores exactly `n`
shifted into the integer bits (the sign-extended stored value is
`n * 2^32`), unperturbed by rounding. -/
theorem C10_round_identity (I F : Nat) (n : Int) (w : Nat)
    (hI : I ≤ 32) (hF : F ≤ 32) (hI1 : 1 ≤ I) (hc : canonical I F w)
    (hn1 : -(2 ^ (I - 1)) ≤ n) (hn2 : n < 2 ^ (I - 1)) :
    round I F w = w ∧
    get_num_sign_extended I (fromInt I F n) = n * 2 ^ 32 := by
  refine ⟨round_id_of_canonical hI hF hc, ?_⟩
  unfold fromInt
  have hdvd : ((2 : Int) ^ (32 - F)) ∣ n * 2 ^ 32 :=
    Dvd.dvd.mul_left (pow_dvd_pow 2 (by omega)) n
  have hcong := sx_round_ofInt hI hF hdvd
  have hwlt : round I F (ofInt (n * 2 ^ 32)) < 2 ^ 64 :=
    (canonical_round hI hF (ofInt_lt _)).1
  have hub := sx_ub hI hwlt
  have hlb := sx_lb hI hwlt
  have hsplit : (2 : Int) ^ (31 + I) = 2 ^ (I - 1) * 2 ^ 32 := by
    rw [← pow_add]; congr 1; omega
  have hn2' : n * 2 ^ 32 < 2 ^ (31 + I) := by
    rw [hsplit]
    exact mul_lt_mul_of_pos_right hn2 (by positivity)
  have hn1' : -(2 ^ (31 + I)) ≤ n * 2 ^ 32 := by
    rw [hsplit]
    have hmul := mul_le_mul_of_nonneg_right hn1 (by positivity : (0 : Int) ≤ 2 ^ 32)
    nlinarith
  have h2 : (2 : Int) ^ (32 + I) = 2 ^ (31 + I) * 2 := by
    rw [show 32 + I = (31 + I) + 1 by omega, pow_succ]
  refine eq_of_modeq_of_window (by positivity) hcong ?_ ?_ <;> omega

theorem C10_witness :
    round 4 4 (5 * 2 ^ 28) = 5 * 2 ^ 28 ∧
    get_num_sign_extended 4 (fromInt 4 4 (-3)) = -3 * 2 ^ 32 :=
  C10_round_identity 4 4 (-3) (5 * 2 ^ 28) (by norm_num) (by norm_num) (by norm_num)
    (by decide) (by norm_num) (by norm_num)

/-! ## Claim C4: additive inverses -/

/-- C4: for every representable (canonical) value `x` of shape `<I,F>`,
`x + (-x) == 0` and `x - x == 0` (comparing with the default-constructed
zero through the code's `operator==`). -/
theorem C4_additive_inverse (I F : Nat) (w : Nat) (hI : I ≤ 32) (hF : F ≤ 32)
    (hc : canonical I F w) :
    eqFP I I (addFP I F I w (negFP I F w)) defaultFP = true ∧
    eqFP I I (subFP I F I w w) defaultFP = true := by
  have hA_dvd := sx_dvd_of_canonical hI hF hc
  have hnegc : canonical I F (negFP I F w) := canonical_round hI hF (ofInt_lt _)
  have hN_dvd := sx_dvd_of_canonical hI hF hnegc
  have hneg_cong : get_num_sign_extended I (negFP I F w) ≡
      -(get_num_sign_extended I w) [ZMOD ((2 : Int) ^ (32 + I))] := by
    unfold negFP
    exact sx_round_ofInt hI hF (dvd_neg.mpr hA_dvd)
  have h2 : (2 : Int) ^ (32 + I) = 2 ^ (31 + I) * 2 := by
    rw [show 32 + I = (31 + I) + 1 by omega, pow_succ]
  constructor
  · have hadd_cong : get_num_sign_extended I (addFP I F I w (negFP I F w)) ≡
        (get_num_sign_extended I w + get_num_sign_extended I (negFP I F w))
        [ZMOD ((2 : Int) ^ (32 + I))] := by
      unfold addFP
      exact sx_round_ofInt hI hF (dvd_add hA_dvd hN_dvd)
    have hzero_cong : get_num_sign_extended I (addFP I F I w (negFP I F w)) ≡ 0
        [ZMOD ((2 : Int) ^ (32 + I))] := by
      refine hadd_cong.trans ?_
      have hsum : get_num_sign_extended I w + get_num_sign_extended I (negFP I F w) ≡
          get_num_sign_extended I w + -(get_num_sign_extended I w)
          [ZMOD ((2 : Int) ^ (32 + I))] :=
        (Int.ModEq.refl _).add hneg_cong
      simpa using hsum
    have hwlt : addFP I F I w (negFP I F w) < 2 ^ 64 := by
      unfold addFP
      exact (canonical_round hI hF (ofInt_lt _)).1
    have hub := sx_ub hI hwlt
    have hlb := sx_lb hI hwlt
    have hres : get_num_sign_extended I (addFP I F I w (negFP I F w)) = 0 := by
      refine eq_of_modeq_of_window (by positivity) hzero_cong ?_ ?_ <;> omega
    unfold eqFP defaultFP
    rw [hres, sx_zero]
    decide
  · have hsub_cong : get_num_sign_extended I (subFP I F I w w) ≡
        (get_num_sign_extended I w - get_num_sign_extended I w)
        [ZMOD ((2 : Int) ^ (32 + I))] := by
      unfold subFP
      exact sx_round_ofInt hI hF (dvd_sub hA_dvd hA_dvd)
    have hzero_cong : get_num_sign_extended I (subFP I F I w w) ≡ 0
        [ZMOD ((2 : Int) ^ (32 + I))] := by
      refine hsub_cong.trans ?_
      simp
    have hwlt : subFP I F I w w < 2 ^ 64 := by
      unfold subFP
      exact (canonical_round hI hF (ofInt_lt _)).1
    have hub := sx_ub hI hwlt
    have hlb := sx_lb hI hwlt
    have hres : get_num_sign_extended I (subFP I F I w w) = 0 := by
      refine eq_of_modeq_of_window (by positivity) hzero_cong ?_ ?_ <;> omega
    unfold eqFP defaultFP
    rw [hres, sx_zero]
    decide

theorem C4_witness :
    eqFP 3 3 (addFP 3 2 3 (11 * 2 ^ 30) (negFP 3 2 (11 * 2 ^ 30))) defaultFP = true ∧
    eqFP 3 3 (subFP 3 2 3 (11 * 2 ^ 30) (11 * 2 ^ 30)) defaultFP = true :=
  C4_additive_inverse 3 2 (11 * 2 ^ 30) (by norm_num) (by norm_num) (by decide)

/-! ## Claim C6: comparisons compare exact Q(32,32) values -/

/-- C6: two values representing the same exact real number compare equal
through `operator==` regardless of their declared widths, and every
comparison operator decides exactly the corresponding comparison of the
represented real values (the sign-extended Q(32,32) values over `2^32`),
with no rounding. -/
theorem C6_comparisons (I1 I2 : Nat) (w1 w2 : Nat) :
    (toDouble I1 w1 = toDouble I2 w2 → eqFP I1 I2 w1 w2 = true) ∧
    eqFP I1 I2 w1 w2 = decide (toDouble I1 w1 = toDouble I2 w2) ∧
    neFP I1 I2 w1 w2 = decide (toDouble I1 w1 ≠ toDouble I2 w2) ∧
    ltFP I1 I2 w1 w2 = decide (toDouble I1 w1 < toDouble I2 w2) ∧
    leFP I1 I2 w1 w2 = decide (toDouble I1 w1 ≤ toDouble I2 w2) ∧
    gtFP I1 I2 w1 w2 = decide (toDouble I2 w2 < toDouble I1 w1) ∧
    geFP I1 I2 w1 w2 = decide (toDouble I2 w2 ≤ toDouble I1 w1) := by
  have hkeyeq : ∀ Ia Ib wa wb : Nat, (toDouble Ia wa = toDouble Ib wb) ↔
      (get_num_sign_extended Ia wa = get_num_sign_extended Ib wb) := by
    intro Ia Ib wa wb
    unfold toDouble
    rw [div_eq_mul_inv, div_eq_mul_inv,
      mul_left_inj' (by positivity : ((2 : ℚ) ^ 32)⁻¹ ≠ 0)]
    exact Int.cast_inj
  have hkeylt : ∀ Ia Ib wa wb : Nat, (toDouble Ia wa < toDouble Ib wb) ↔
      (get_num_sign_extended Ia wa < get_num_sign_extended Ib wb) := by
    intro Ia Ib wa wb
    unfold toDouble
    rw [div_eq_mul_inv, div_eq_mul_inv,
      mul_lt_mul_right (by positivity : (0 : ℚ) < ((2 : ℚ) ^ 32)⁻¹)]
    exact Int.cast_lt
  have hkeyle : ∀ Ia Ib wa wb : Nat, (toDouble Ia wa ≤ toDouble Ib wb) ↔
      (get_num_sign_extended Ia wa ≤ get_num_sign_extended Ib wb) := by
    intro Ia Ib wa wb
    unfold toDouble
    rw [div_eq_mul_inv, div_eq_mul_inv,
      mul_le_mul_right (by positivity : (0 : ℚ) < ((2 : ℚ) ^ 32)⁻¹)]
    exact Int.cast_le
  refine ⟨?_, ?_, ?_, ?_, ?_, ?_, ?_⟩
  · intro h
    unfold eqFP
    exact decide_eq_true ((hkeyeq I1 I2 w1 w2).mp h)
  · unfold eqFP
    exact decide_eq_decide.mpr (hkeyeq I1 I2 w1 w2).symm
  · unfold neFP
    exact decide_eq_decide.mpr (not_congr (hkeyeq I1 I2 w1 w2)).symm
  · unfold ltFP
    exact decide_eq_decide.mpr (hkeylt I1 I2 w1 w2).symm
  · unfold leFP
    exact decide_eq_decide.mpr (hkeyle I1 I2 w1 w2).symm
  · unfold gtFP
    exact decide_eq_decide.mpr (hkeylt I2 I1 w2 w1).symm
  · unfold geFP
    exact decide_eq_decide.mpr (hkeyle I2 I1 w2 w1).symm

theorem C6_witness : eqFP 10 11 (3 * 2 ^ 22) (3 * 2 ^ 22) = true :=
  (C6_comparisons 10 11 (3 * 2 ^ 22) (3 * 2 ^ 22)).1 (by
    unfold toDouble
    rw [show get_num_sign_extended 10 (3 * 2 ^ 22) = 3 * 2 ^ 22 from by decide,
      show get_num_sign_extended 11 (3 * 2 ^ 22) = 3 * 2 ^ 22 from by decide])

/-! ## Claim C7: compound assignment -/

/-- C7 counterexample: at shapes `<1,1> *= <1,1>` with both operands `0.5`
(word `2^31`), the binary product (shape `<2,2>`, word `2^30`, value
`0.25`) is re-rounded by the converting constructor into the receiver's
shape, leaving the receiver's word `2^31` (value `0.5`), which is not the
binary operator result's stored word. -/
theorem C7_counterexample :
    mulAssignFP 1 1 1 1 (2 ^ 31) (2 ^ 31) ≠ mulFP 1 1 1 1 (2 ^ 31) (2 ^ 31) := by
  decide

/-- C7 (amended): `+=`, `-=` and `/=` behave as the corresponding binary
operator followed by replacing the receiver's stored word with the
result's; `*=`, whose binary operator can return a different shape, instead
stores the product converted into the receiver's shape (sign extension
followed by round-and-mask, i.e. the converting constructor); the
receiver's declared width never changes (it is a type parameter). -/
theorem C7_compound_assignment (I F RI RF : Nat) (wl wr : Nat)
    (hI : I ≤ 32) (hF : F ≤ 32) :
    addAssignFP I F RI wl wr = addFP I F RI wl wr ∧
    subAssignFP I F RI wl wr = subFP I F RI wl wr ∧
    divAssignFP I F RI wl wr = divFP I F RI wl wr ∧
    mulAssignFP I F RI RF wl wr = fromFP I F (mulResI I RI) (mulFP I F RI RF wl wr) := by
  refine ⟨rfl, rfl, rfl, ?_⟩
  unfold mulAssignFP
  split
  · next h =>
    have hcan := mulFP_canonical I F RI RF wl wr
    rw [h.1, h.2] at hcan
    rw [h.1]
    exact (fromFP_id_of_canonical hI hF hcan).symm
  · rfl

theorem C7_witness :
    addAssignFP 5 5 4 (3 * 2 ^ 27) (9 * 2 ^ 28) = addFP 5 5 4 (3 * 2 ^ 27) (9 * 2 ^ 28) ∧
    subAssignFP 5 5 4 (3 * 2 ^ 27) (9 * 2 ^ 28) = subFP 5 5 4 (3 * 2 ^ 27) (9 * 2 ^ 28) ∧
    divAssignFP 5 5 4 (3 * 2 ^ 27) (9 * 2 ^ 28) = divFP 5 5 4 (3 * 2 ^ 27) (9 * 2 ^ 28) ∧
    mulAssignFP 5 5 4 4 (3 * 2 ^ 27) (9 * 2 ^ 28) =
      fromFP 5 5 (mulResI 5 4) (mulFP 5 5 4 4 (3 * 2 ^ 27) (9 * 2 ^ 28)) :=
  C7_compound_assignment 5 5 4 4 (3 * 2 ^ 27) (9 * 2 ^ 28) (by norm_num) (by norm_num)

/-! ## Claim C2: invariant I1 after every public operation -/

/-- C2: after every public operation (constructors, assignments, unary
negation, the arithmetic operators and the compound assignments), the
stored 64-bit word has its significant bits exactly within
`[32-FRAC_BITS, 31+INT_BITS]` with every bit outside that window zero
(trivially the whole word when `INT_BITS + FRAC_BITS = 64`); for the
word-copying operations (same-shape copy and assignment) this holds given a
canonical source, and for division it holds of the quotient word whenever
the division completes. -/
theorem C2_invariant (I F RI RF : Nat) (w wl wr : Nat) (a : ℚ) (n i : Int) (f : Nat)
    (hI : I ≤ 32) (hF : F ≤ 32) (hw : canonical I F w) :
    canonical I F defaultFP ∧
    canonical I F (fromFP I F RI wr) ∧
    canonical I F (copyFP w) ∧
    canonical I F (fromDouble I F a) ∧
    canonical I F (fromInt I F n) ∧
    canonical I F (fromIntFrac I F i f) ∧
    canonical I F (assignFP I F RI wr) ∧
    canonical I F (assignSameFP w) ∧
    canonical I F (negFP I F wl) ∧
    canonical I F (addFP I F RI wl wr) ∧
    canonical I F (addAssignFP I F RI wl wr) ∧
    canonical I F (subFP I F RI wl wr) ∧
    canonical I F (subAssignFP I F RI wl wr) ∧
    canonical (mulResI I RI) (mulResF F RF) (mulFP I F RI RF wl wr) ∧
    canonical I F (mulAssignFP I F RI RF wl wr) ∧
    canonical I F ((divFP I F RI wl wr).getD defaultFP) ∧
    canonical I F ((divAssignFP I F RI wl wr).getD defaultFP) := by
  have hzero : canonical I F defaultFP :=
    ⟨by decide, fun _ => ⟨Nat.zero_mod _, by positivity⟩⟩
  have hdiv : canonical I F ((divFP I F RI wl wr).getD defaultFP) := by
    unfold divFP
    split
    · simp only [Option.getD_none]
      exact hzero
    · simp only [Option.getD_some]
      exact canonical_round hI hF (ofInt_lt _)
  refine ⟨hzero, canonical_round hI hF (ofInt_lt _), hw,
    canonical_round hI hF (ofInt_lt _), canonical_round hI hF (ofInt_lt _), ?_,
    canonical_round hI hF (ofInt_lt _), hw, canonical_round hI hF (ofInt_lt _),
    canonical_round hI hF (ofInt_lt _), canonical_round hI hF (ofInt_lt _),
    canonical_round hI hF (ofInt_lt _), canonical_round hI hF (ofInt_lt _),
    mulFP_canonical I F RI RF wl wr, ?_, hdiv, hdiv⟩
  · unfold fromIntFrac
    apply canonical_round hI hF
    apply Nat.or_lt_two_pow
    · exact lt_of_le_of_lt (Nat.and_le_right) (by norm_num)
    · exact lt_of_le_of_lt (Nat.and_le_left) (by norm_num)
  · unfold mulAssignFP
    split
    · next h =>
      have hcan := mulFP_canonical I F RI RF wl wr
      rw [h.1, h.2] at hcan
      exact hcan
    · unfold fromFP
      exact canonical_round hI hF (ofInt_lt _)

theorem C2_witness :
    canonical 1 1 defaultFP ∧
    canonical 1 1 (fromFP 1 1 1 (2 ^ 31)) ∧
    canonical 1 1 (copyFP (2 ^ 31)) ∧
    canonical 1 1 (fromDouble 1 1 (1 / 2)) ∧
    canonical 1 1 (fromInt 1 1 0) ∧
    canonical 1 1 (fromIntFrac 1 1 0 1) ∧
    canonical 1 1 (assignFP 1 1 1 (2 ^ 31)) ∧
    canonical 1 1 (assignSameFP (2 ^ 31)) ∧
    canonical 1 1 (negFP 1 1 (2 ^ 31)) ∧
    canonical 1 1 (addFP 1 1 1 (2 ^ 31) (2 ^ 31)) ∧
    canonical 1 1 (addAssignFP 1 1 1 (2 ^ 31) (2 ^ 31)) ∧
    canonical 1 1 (subFP 1 1 1 (2 ^ 31) (2 ^ 31)) ∧
    canonical 1 1 (subAssignFP 1 1 1 (2 ^ 31) (2 ^ 31)) ∧
    canonical (mulResI 1 1) (mulResF 1 1) (mulFP 1 1 1 1 (2 ^ 31) (2 ^ 31)) ∧
    canonical 1 1 (mulAssignFP 1 1 1 1 (2 ^ 31) (2 ^ 31)) ∧
    canonical 1 1 ((divFP 1 1 1 (2 ^ 31) (2 ^ 31)).getD defaultFP) ∧
    canonical 1 1 ((divAssignFP 1 1 1 (2 ^ 31) (2 ^ 31)).getD defaultFP) :=
  C2_invariant 1 1 1 1 (2 ^ 31) (2 ^ 31) (2 ^ 31) (1 / 2) 0 0 1
    (by norm_num) (by norm_num) (by decide)

/-! ## Claim C5: behaviour at FRAC_BITS = 32 -/

lemma llround_half : llround (1 / 2 : ℚ) = 1 := by
  unfold llround
  rw [if_pos (by norm_num : (0 : ℚ) ≤ 1 / 2)]
  rw [show (1 / 2 + 1 / 2 : ℚ) = 1 by norm_num]
  exact_mod_cast Int.floor_one

/-- C5 counterexample: constructing `FixedPoint<0,32>` from the value
`2^-33` - which requires rounding at Q(32,32) resolution - stores the word
`1` (the nearest value, ties away from zero, via `llround`), while
truncation toward negative infinity of the scaled value would give `0`.
So construction at `F = 32` rounds to nearest instead of truncating. -/
theorem C5_counterexample :
    fromDouble 0 32 (1 / 2 ^ 33) = 1 ∧ ⌊(1 / 2 ^ 33 : ℚ) * 2 ^ 32⌋ = 0 := by
  have hmul : (1 / 2 ^ 33 : ℚ) * 2 ^ 32 = 1 / 2 := by norm_num
  constructor
  · unfold fromDouble
    rw [hmul, llround_half]
    decide
  · rw [hmul]
    exact Int.floor_eq_iff.mpr (by constructor <;> norm_num)

/-- C5 (amended): when `FRAC_BITS = 32` the rounding step adds no
half-increment - `round` is the pure bit mask - and `llround` rounds to a
nearest integer (ties away from zero); consequently constructing from a
floating-point value whose scaled value is representable stores exactly the
nearest Q(32,32) integer, i.e. construction rounds to nearest rather than
truncating toward negative infinity. -/
theorem C5_f32_construction (I : Nat) (w : Nat) (a : ℚ) (hI : I ≤ 32)
    (h1 : -(2 ^ (31 + I)) ≤ llround (a * 2 ^ 32))
    (h2 : llround (a * 2 ^ 32) < 2 ^ (31 + I)) :
    round I 32 w = (if I + 32 < 64 then w &&& fpmask I 32 else w) ∧
    |a * 2 ^ 32 - (llround (a * 2 ^ 32) : ℚ)| ≤ 1 / 2 ∧
    get_num_sign_extended I (fromDouble I 32 a) = llround (a * 2 ^ 32) := by
  refine ⟨?_, llround_nearest _, ?_⟩
  · unfold round
    norm_num
  · unfold fromDouble
    have hdvd : ((2 : Int) ^ (32 - 32)) ∣ llround (a * 2 ^ 32) := by norm_num
    have hcong := sx_round_ofInt hI (le_refl 32) hdvd
    have hwlt : round I 32 (ofInt (llround (a * 2 ^ 32))) < 2 ^ 64 :=
      (canonical_round hI (le_refl 32) (ofInt_lt _)).1
    have hub := sx_ub hI hwlt
    have hlb := sx_lb hI hwlt
    have hp2 : (2 : Int) ^ (32 + I) = 2 ^ (31 + I) * 2 := by
      rw [show 32 + I = (31 + I) + 1 by omega, pow_succ]
    refine eq_of_modeq_of_window (by positivity) hcong ?_ ?_ <;> omega

theorem C5_witness :
    round 0 32 77 = (if 0 + 32 < 64 then 77 &&& fpmask 0 32 else 77) ∧
    |(1 / 2 ^ 33 : ℚ) * 2 ^ 32 - (llround ((1 / 2 ^ 33 : ℚ) * 2 ^ 32) : ℚ)| ≤ 1 / 2 ∧
    get_num_sign_extended 0 (fromDouble 0 32 (1 / 2 ^ 33)) =
      llround ((1 / 2 ^ 33 : ℚ) * 2 ^ 32) :=
  C5_f32_construction 0 77 (1 / 2 ^ 33) (by norm_num)
    (by rw [show (1 / 2 ^ 33 : ℚ) * 2 ^ 32 = 1 / 2 by norm_num, llround_half]; norm_num)
    (by rw [show (1 / 2 ^ 33 : ℚ) * 2 ^ 32 = 1 / 2 by norm_num, llround_half]; norm_num)

/-! ## Claim C8: boundary rounding near zero -/

/-- C8: `FixedPoint<12,12>` constructed from `-0.0001` renders as
`"0 + 0/4096"` and from `-0.0002` renders as `"-1 + 4095/4096"`.  The
rational arguments are quantified over an interval around the decimal
values wide enough to contain the exact values of the nearest IEEE doubles
(whose scaling by `2^32` is exact). -/
theorem C8_boundary_rendering (a b : ℚ)
    (ha : |a + 1 / 10000| ≤ 1 / 2 ^ 40) (hb : |b + 2 / 10000| ≤ 1 / 2 ^ 40) :
    to_string 12 12 (fromDouble 12 12 a) = "0 + 0/4096" ∧
    to_string 12 12 (fromDouble 12 12 b) = "-1 + 4095/4096" := by
  rw [abs_le] at ha hb
  constructor
  · have ha0 : a < 0 := by
      have hc1 : (-1 / 10000 + 1 / 2 ^ 40 : ℚ) < 0 := by norm_num
      linarith [ha.2]
    have haneg : ¬ (0 : ℚ) ≤ a * 2 ^ 32 := by
      push_neg
      exact mul_neg_of_neg_of_pos ha0 (by positivity)
    have hmull := mul_le_mul_of_nonneg_right ha.1 (by positivity : (0 : ℚ) ≤ 2 ^ 32)
    have hmulu := mul_le_mul_of_nonneg_right ha.2 (by positivity : (0 : ℚ) ≤ 2 ^ 32)
    have hla : llround (a * 2 ^ 32) = -429497 := by
      unfold llround
      rw [if_neg haneg, Int.ceil_eq_iff]
      constructor
      · push_cast
        have hnum : (-429497 : ℚ) - 1 < (-1 / 10000 - 1 / 2 ^ 40) * 2 ^ 32 - 1 / 2 := by
          norm_num
        linarith
      · push_cast
        have hnum : (-1 / 10000 + 1 / 2 ^ 40) * 2 ^ 32 - 1 / 2 ≤ (-429497 : ℚ) := by
          norm_num
        linarith
    unfold fromDouble
    rw [hla]
    decide
  · have hb0 : b < 0 := by
      have hc1 : (-2 / 10000 + 1 / 2 ^ 40 : ℚ) < 0 := by norm_num
      linarith [hb.2]
    have hbneg : ¬ (0 : ℚ) ≤ b * 2 ^ 32 := by
      push_neg
      exact mul_neg_of_neg_of_pos hb0 (by positivity)
    have hmull := mul_le_mul_of_nonneg_right hb.1 (by positivity : (0 : ℚ) ≤ 2 ^ 32)
    have hmulu := mul_le_mul_of_nonneg_right hb.2 (by positivity : (0 : ℚ) ≤ 2 ^ 32)
    have hlb2 : llround (b * 2 ^ 32) = -858993 := by
      unfold llround
      rw [if_neg hbneg, Int.ceil_eq_iff]
      constructor
      · push_cast
        have hnum : (-858993 : ℚ) - 1 < (-2 / 10000 - 1 / 2 ^ 40) * 2 ^ 32 - 1 / 2 := by
          norm_num
        linarith
      · push_cast
        have hnum : (-2 / 10000 + 1 / 2 ^ 40) * 2 ^ 32 - 1 / 2 ≤ (-858993 : ℚ) := by
          norm_num
        linarith
    unfold fromDouble
    rw [hlb2]
    decide

theorem C8_witness :
    to_string 12 12 (fromDouble 12 12 (-1 / 10000)) = "0 + 0/4096" ∧
    to_string 12 12 (fromDouble 12 12 (-2 / 10000)) = "-1 + 4095/4096" :=
  C8_boundary_rendering (-1 / 10000) (-2 / 10000) (by norm_num) (by norm_num)

/-! ## Claim C3: the two multiplication paths agree -/

/-- C3: whenever both operand shapes fit in 32 significant bits - the
domain on which `operator*` selects the fast 64-bit path, while the slow
exact 128-bit path is applicable everywhere - the two paths produce
bit-for-bit identical result words on all representable (canonical)
operand values. -/
theorem C3_mul_paths_agree (I1 F1 I2 F2 : Nat) (w1 w2 : Nat)
    (h01 : 0 < I1 + F1) (hk1 : I1 + F1 ≤ 32)
    (h02 : 0 < I2 + F2) (hk2 : I2 + F2 ≤ 32)
    (hc1 : canonical I1 F1 w1) (hc2 : canonical I2 F2 w2) :
    mulFast I1 F1 I2 F2 w1 w2 = mulSlow I1 F1 I2 F2 w1 w2 := by
  unfold mulFast mulSlow
  congr 1
  obtain ⟨b1, hA, hb1l, hb1u⟩ := sx_decomp_of_canonical (by omega) (by omega) h01 hc1
  obtain ⟨b2, hB, hb2l, hb2u⟩ := sx_decomp_of_canonical (by omega) (by omega) h02 hc2
  simp only [mulFastNum, mulSlowNum]
  rw [hA, hB]
  rw [fdiv_pow_exact b1 (by omega : I1 ≤ 32 - F1),
    fdiv_pow_exact b2 (by omega : I2 ≤ 32 - F2)]
  have hb1abs : |b1| ≤ 2 ^ (I1 + F1 - 1) := abs_le.mpr ⟨hb1l, le_of_lt hb1u⟩
  have hb2abs : |b2| ≤ 2 ^ (I2 + F2 - 1) := abs_le.mpr ⟨hb2l, le_of_lt hb2u⟩
  have habs1 : |b1 * 2 ^ (32 - F1 - I1)| ≤ 2 ^ 31 := by
    rw [abs_mul, abs_of_nonneg (by positivity : (0 : Int) ≤ 2 ^ (32 - F1 - I1))]
    calc |b1| * 2 ^ (32 - F1 - I1) ≤ 2 ^ (I1 + F1 - 1) * 2 ^ (32 - F1 - I1) :=
          mul_le_mul_of_nonneg_right hb1abs (by positivity)
      _ = 2 ^ 31 := by rw [← pow_add]; congr 1; omega
  have habs2 : |b2 * 2 ^ (32 - F2 - I2)| ≤ 2 ^ 31 := by
    rw [abs_mul, abs_of_nonneg (by positivity : (0 : Int) ≤ 2 ^ (32 - F2 - I2))]
    calc |b2| * 2 ^ (32 - F2 - I2) ≤ 2 ^ (I2 + F2 - 1) * 2 ^ (32 - F2 - I2) :=
          mul_le_mul_of_nonneg_right hb2abs (by positivity)
      _ = 2 ^ 31 := by rw [← pow_add]; congr 1; omega
  set P := b1 * 2 ^ (32 - F1 - I1) * (b2 * 2 ^ (32 - F2 - I2)) with hP
  have habsP : |P| ≤ 2 ^ 62 := by
    rw [hP, abs_mul]
    calc |b1 * 2 ^ (32 - F1 - I1)| * |b2 * 2 ^ (32 - F2 - I2)| ≤ 2 ^ 31 * 2 ^ 31 :=
          mul_le_mul habs1 habs2 (abs_nonneg _) (by positivity)
      _ = 2 ^ 62 := by norm_num
  have hPb := abs_le.mp habsP
  by_cases hII : 32 < I1 + I2
  · rw [if_pos hII, ofInt_mul_pow_mod]
    congr 1
    have hABexp : b1 * 2 ^ (32 - F1) * (b2 * 2 ^ (32 - F2)) =
        b1 * b2 * 2 ^ ((32 - F1) + (32 - F2)) := by
      rw [pow_add]; ring
    rw [hABexp, fdiv_pow_exact (b1 * b2) (by omega : 32 ≤ (32 - F1) + (32 - F2))]
    have hexp : (32 - F1 - I1) + ((32 - F2 - I2) + (I1 + I2 - 32)) =
        (32 - F1) + (32 - F2) - 32 := by omega
    rw [hP, ← hexp, pow_add, pow_add]
    ring
  · rw [if_neg hII, toInt_ofInt (by omega) (by omega)]
    congr 1
    have e1 : (2 : Int) ^ (32 - F1) = 2 ^ (32 - F1 - I1) * 2 ^ I1 := by
      rw [← pow_add]; congr 1; omega
    have e2 : (2 : Int) ^ (32 - F2) = 2 ^ (32 - F2 - I2) * 2 ^ I2 := by
      rw [← pow_add]; congr 1; omega
    have hABP : b1 * 2 ^ (32 - F1) * (b2 * 2 ^ (32 - F2)) = P * 2 ^ (I1 + I2) := by
      rw [e1, e2, hP, pow_add]
      ring
    rw [hABP]
    have h32 : (2 : Int) ^ 32 = 2 ^ ((I1 + I2) + (32 - (I1 + I2))) := by congr 1; omega
    rw [h32, fdiv_pow_shift]

theorem C3_witness : mulFast 1 1 1 1 (2 ^ 31) (2 ^ 31) = mulSlow 1 1 1 1 (2 ^ 31) (2 ^ 31) :=
  C3_mul_paths_agree 1 1 1 1 (2 ^ 31) (2 ^ 31) (by norm_num) (by norm_num)
    (by norm_num) (by norm_num) (by decide) (by decide)

end FP
